import Mathlib

/-!
# Verification of the cargo-caps symbol-to-capability pipeline

Shallow embedding of the core algorithms of `cargo-caps` / `capabara`:

* `cap_rule.rs` — the longest-match rule engine (`Rules::match_symbol`);
* `demangle.rs` — the hash-suffix stripping step of `demangle_symbol`;
* `rust_path.rs` — `RustPath` and its `segments`;
* `rust_type.rs` — the recursive-descent `TypeName`/`TraitFnImpl` parser and
  `collect_path`;
* `symbol.rs` — `FunctionOrPath::from_demangled`;
* `capability.rs` — `DeducedCaps::add_symbol`;
* `crate_name.rs` — `CrateName::new` validation, plus `is_standard_crate`
  from `capabara/src/tree.rs`;
* `build_graph_analysis.rs` — the usage-kind flood-fill
  (`DepGraph::compute_dependency_kinds`) and its edge/dependent combination
  table (`dependency_kind_from_edge_and_dependent`);
* `analyzer.rs` / `checker.rs` — the two `filter_capabilities` functions.

Rust strings are modelled as `List Char` (`Str`); byte indices coincide with
character indices for the ASCII data this program manipulates.  Rust `panic!`
and propagated `anyhow` errors are both modelled as `Except.error` (with a
message marking which one it is).  `BTreeSet` is modelled as `Finset`,
`BTreeMap` as a total function into `Finset` (absent key = empty set, which is
exactly how `entry(k).or_default()` behaves observationally in this code).
-/

/-- Rust strings, modelled as lists of characters. -/
abbrev Str := List Char

/-- `pat.isPrefixOf s`, i.e. Rust `s.starts_with(pat)`. -/
def strStartsWith (s pat : Str) : Bool := pat.isPrefixOf s

/-- Rust `s.strip_prefix(pat)`. -/
def strStripPrefix (s pat : Str) : Option Str :=
  if pat.isPrefixOf s then some (s.drop pat.length) else none

/-- Does the substring `pat` occur in `s` at position `i`? -/
def isSubAt (s pat : Str) (i : Nat) : Bool := pat.isPrefixOf (s.drop i)

/-- Rust `s.find(pat)`: index of the first occurrence of `pat` in `s`. -/
def findSub (s pat : Str) : Option Nat :=
  (List.range (s.length + 1)).find? (fun i => isSubAt s pat i)

/-- Rust `s.rfind(pat)`: index of the last occurrence of `pat` in `s`. -/
def rfindSub (s pat : Str) : Option Nat :=
  (List.range (s.length + 1)).reverse.find? (fun i => isSubAt s pat i)

/-- Rust `s.contains(pat)`. -/
def containsSub (s pat : Str) : Bool := (findSub s pat).isSome

/-- Rust `s.trim_start_matches(c)`. -/
def trimStartMatches (s : Str) (c : Char) : Str := s.dropWhile (· = c)

namespace CapRule

/-!
## `cargo-caps/src/capability.rs` — the `Capability` enum

The variant order reproduces the Rust declaration order (it is the `Ord`
used by `BTreeSet<Capability>`; only membership matters for our theorems).
-/

inductive Capability where
  | buildRs
  | alloc
  | panic
  | time
  | sysinfo
  | stdio
  | thread
  | net
  | fs
  | unsafeCap
  | command
  | unknown
  | wildcard
deriving DecidableEq, Repr

abbrev CapabilitySet := Finset Capability

/-!
## `cargo-caps/src/cap_rule.rs` — the rule engine
-/

/-- `Pattern` from `cap_rule.rs`: an exact symbol match or a prefix match. -/
inductive Pattern where
  | exact (s : Str)
  | startsWith (s : Str)
deriving DecidableEq, Repr

/-- The pattern's text (what `pattern.len()` measures in `match_symbol`). -/
def Pattern.text : Pattern → Str
  | .exact s => s
  | .startsWith s => s

/-- Does this pattern match a symbol string?  `Exact` compares for equality,
`StartsWith` tests `symbol.starts_with(pattern)`. -/
def Pattern.matchesSym (p : Pattern) (symbol : Str) : Bool :=
  match p with
  | .exact pat => pat = symbol
  | .startsWith pat => strStartsWith symbol pat

/-- `Rule` from `cap_rule.rs`.  The `BTreeSet<Pattern>` is modelled as the
list of its elements (iteration order; only membership and iteration matter
to `match_symbol`). -/
structure Rule where
  pattern : List Pattern
  caps : CapabilitySet
deriving DecidableEq

/-- `Rules` from `cap_rule.rs`: the ordered rule table. -/
structure Rules where
  rules : List Rule
deriving DecidableEq

/-- The body of the `is_none_or` update in `Rules::match_symbol`: replace the
best match only when the new specificity is strictly greater. -/
def considerMatch (rule : Rule) (specificity : Nat)
    (best : Option (Rule × Nat)) : Option (Rule × Nat) :=
  match best with
  | none => some (rule, specificity)
  | some (_, prevSpec) =>
    if specificity > prevSpec then some (rule, specificity) else best

/-- The inner loop of `Rules::match_symbol`: scan one rule's patterns. -/
def scanRule (symbol : Str) (best : Option (Rule × Nat)) (rule : Rule) :
    Option (Rule × Nat) :=
  rule.pattern.foldl
    (fun best m =>
      match m with
      | Pattern.exact pat =>
        if pat = symbol then considerMatch rule pat.length best else best
      | Pattern.startsWith pat =>
        if strStartsWith symbol pat then considerMatch rule pat.length best
        else best)
    best

/-- `Rules::match_symbol`: find the most specific (longest-pattern) matching
rule and return its capability set. -/
def Rules.matchSymbol (rs : Rules) (symbol : Str) : Option CapabilitySet :=
  (rs.rules.foldl (scanRule symbol) none).map fun (rule, _) => rule.caps

/-- Some pattern of some rule in the table matches the symbol. -/
def Rules.someMatch (rs : Rules) (symbol : Str) : Prop :=
  ∃ r ∈ rs.rules, ∃ p ∈ r.pattern, p.matchesSym symbol

instance (rs : Rules) (symbol : Str) : Decidable (rs.someMatch symbol) := by
  unfold Rules.someMatch
  infer_instance

/-- The `(rule, pattern)` entries of the table, in iteration order of the two
nested loops of `Rules::match_symbol`. -/
def Rules.allPairs (rs : Rules) : List (Rule × Pattern) :=
  rs.rules.flatMap fun r => r.pattern.map fun p => (r, p)

/-- Processing a single `(rule, pattern)` pair, exactly as the loop body of
`Rules::match_symbol` does. -/
def stepPair (symbol : Str) (best : Option (Rule × Nat)) (rp : Rule × Pattern) :
    Option (Rule × Nat) :=
  if rp.2.matchesSym symbol then considerMatch rp.1 rp.2.text.length best else best

/-- Invariant of the `match_symbol` fold: the accumulator is `none` iff
nothing processed so far matched, and otherwise stores a rule owning a
matching pattern of maximal length among those processed. -/
def goodPairs (symbol : Str) (pairs : List (Rule × Pattern)) :
    Option (Rule × Nat) → Prop
  | none => ∀ rp ∈ pairs, ¬ rp.2.matchesSym symbol
  | some (r, spec) =>
    (∃ rp ∈ pairs, rp.1 = r ∧ rp.2.matchesSym symbol ∧ rp.2.text.length = spec) ∧
    ∀ rp ∈ pairs, rp.2.matchesSym symbol → rp.2.text.length ≤ spec

end CapRule

namespace BuildGraph

/-!
## `cargo-caps/src/build_graph_analysis.rs` — usage-kind flood-fill
-/

/-- `DepKind` from `build_graph_analysis.rs` (declaration order preserved). -/
inductive DepKind where
  | unknown
  | normal
  | build
  | dev
  | procMacro
deriving DecidableEq, Repr, Fintype

/-- The `match (dep_kind, crate_kind)` table inside
`dependency_kind_from_edge_and_dependent`, with the Rust arm order preserved
(earlier arms shadow later ones). -/
def combineKind (depKind crateKind : DepKind) : DepKind :=
  match depKind, crateKind with
  -- All dependencies ON proc-macros are marked proc-macros:
  | _, .procMacro => .procMacro
  -- A normal dependency inherits dependent's kind:
  | .normal, ck => ck
  -- All dependencies of a build-dependency are marked build-dependencies:
  | .build, _ => .build
  -- All dependencies of a dev-dependency are marked dev-dependencies:
  | .dev, _ => .dev
  -- All dependencies of a proc-macro are marked proc-macros:
  | .procMacro, _ => .procMacro
  -- Unknown is viral (the only cases left are an `Unknown` edge kind):
  | .unknown, _ => .unknown

/-- `dependency_kind_from_edge_and_dependent`: combine every edge kind with
every dependent kind and collect the results. -/
def dependencyKindFromEdgeAndDependent
    (edgeKind dependentKind : Finset DepKind) : Finset DepKind :=
  Finset.image₂ combineKind edgeKind dependentKind

/-- The per-node state of `DepGraph::compute_dependency_kinds`: each node's
usage-kind set (the `kind` field of `Node`) plus the work queue. -/
structure FloodState (n : Nat) where
  kinds : Fin n → Finset DepKind
  queue : List (Fin n)

/-- The directed edges of the graph: `(dependent, dependency, edge kinds)`. -/
abbrev EdgeList (n : Nat) := List (Fin n × Fin n × Finset DepKind)

/-- The inner `for (dependency_idx, edge_data) in node_edges` loop of
`compute_dependency_kinds`.  `nodeKind` is the snapshot of the popped node's
kind set (cloned before the loop in the source); a dependency is re-enqueued
exactly when it gains a kind it did not already have. -/
def processEdges {n : Nat} (nodeKind : Finset DepKind) :
    List (Fin n × Finset DepKind) → (Fin n → Finset DepKind) → List (Fin n) →
      (Fin n → Finset DepKind) × List (Fin n)
  | [], kinds, queue => (kinds, queue)
  | (dep, ekind) :: rest, kinds, queue =>
    let newKinds := dependencyKindFromEdgeAndDependent ekind nodeKind
    let missing := newKinds \ kinds dep
    if missing = ∅ then processEdges nodeKind rest kinds queue
    else
      processEdges nodeKind rest
        (Function.update kinds dep (kinds dep ∪ missing)) (queue ++ [dep])

/-- One iteration of the `while let Some(node_idx) = queue.pop_front()` loop
of `compute_dependency_kinds`; `none` when the queue is empty. -/
def floodStep {n : Nat} (edges : EdgeList n) (s : FloodState n) :
    Option (FloodState n) :=
  match s.queue with
  | [] => none
  | i :: rest =>
    let nodeKind := s.kinds i
    let es := (edges.filter (fun e => e.1 = i)).map (fun e => e.2)
    let r := processEdges nodeKind es s.kinds rest
    some ⟨r.1, r.2⟩

/-- `floodStep`, returning the state unchanged once the queue is empty. -/
def floodStepTotal {n : Nat} (edges : EdgeList n) (s : FloodState n) :
    FloodState n :=
  (floodStep edges s).getD s

/-- Run the flood-fill loop for at most `fuel` iterations. -/
def floodRun {n : Nat} (edges : EdgeList n) : Nat → FloodState n → FloodState n
  | 0, s => s
  | fuel + 1, s =>
    match floodStep edges s with
    | none => s
    | some s' => floodRun edges fuel s'

/-- Termination measure: total number of kinds still missing across all
nodes, plus the queue length. -/
def floodMeasure {n : Nat} (s : FloodState n) : Nat :=
  (∑ i : Fin n, ((Finset.univ : Finset DepKind) \ s.kinds i).card)
    + s.queue.length

end BuildGraph

namespace AnyCaps

/-!
## `analyzer.rs` / `checker.rs` — `filter_capabilities`

These files use the `Capability` enum variant set that includes the
catch-all `Any` (as declared in `capabara/src/capability.rs`); only
membership of `Any` matters to the two filters.
-/

/-- The `Capability` enum from `capabara/src/capability.rs` (the catch-all
variant is `Any`). -/
inductive Capability where
  | panic
  | alloc
  | time
  | sysinfo
  | stdio
  | thread
  | net
  | fopen
  | any
deriving DecidableEq, Repr, Fintype

abbrev CapabilitySet := Finset Capability

/-- `filter_capabilities` from `analyzer.rs`: if `Any` is present, return
only `Any` (regardless of the ignored caps); otherwise drop the ignored
capabilities. -/
def analyzerFilterCapabilities (capabilities ignoredCaps : CapabilitySet) :
    CapabilitySet :=
  if Capability.any ∈ capabilities then {Capability.any}
  else capabilities.filter (fun cap => cap ∉ ignoredCaps)

/-- `filter_capabilities` from `checker.rs`: an allow-list containing `Any`
allows everything (empty result); otherwise an actual set containing `Any`
collapses to `{Any}`; otherwise keep only the non-allowed capabilities. -/
def checkerFilterCapabilities (actualCaps allowedCaps : CapabilitySet) :
    CapabilitySet :=
  if Capability.any ∈ allowedCaps then (∅ : CapabilitySet)
  else if Capability.any ∈ actualCaps then {Capability.any}
  else actualCaps.filter (fun cap => cap ∉ allowedCaps)

end AnyCaps

namespace Demangle

/-!
## `demangle.rs` — the hash-suffix stripping step of `demangle_symbol`

After decoding, `demangle_symbol` does:
```text
if let Some(hash_pos) = demangled.rfind("::h") {
    demangled = demangled[..hash_pos].to_owned();
}
```
-/

/-- The hash-suffix stripping step of `demangle_symbol`: truncate at the last
occurrence of `"::h"`, if any. -/
def stripHashSuffix (s : Str) : Str :=
  match rfindSub s ([':', ':', 'h'] : Str) with
  | some hashPos => s.take hashPos
  | none => s

/-- Is `c` a hexadecimal digit? -/
def isHexChar (c : Char) : Bool :=
  c.isDigit || ('a' ≤ c && c ≤ 'f') || ('A' ≤ c && c ≤ 'F')

/-- Modelled from the spec's words (for comparison with `stripHashSuffix`):
the decoded name ends in a disambiguator of the exact shape
`::h<16 hex chars>`. -/
def endsInHashSuffixSpec (s : Str) : Bool :=
  decide (19 ≤ s.length) &&
    decide ((s.drop (s.length - 19)).take 3 = ([':', ':', 'h'] : Str)) &&
    (s.drop (s.length - 16)).all isHexChar

end Demangle

namespace Deduce

open CapRule

/-!
## `rust_path.rs` — `RustPath`
-/

/-- `RustPath` from `rust_path.rs`: a newtype around the path string. -/
structure RustPath where
  str : Str
deriving DecidableEq, Repr

/-- Rust `str::split("::")` (leftmost non-overlapping separators), with an
accumulator for the current segment. -/
def splitSepAux : Str → Str → List Str
  | [], cur => [cur.reverse]
  | ':' :: ':' :: rest, cur => cur.reverse :: splitSepAux rest []
  | c :: rest, cur => splitSepAux rest (c :: cur)

/-- `RustPath::segments`: the `::`-separated parts; empty for the empty
path. -/
def RustPath.segments (p : RustPath) : List Str :=
  if p.str = [] then [] else splitSepAux p.str []

/-!
## `rust_type.rs` — the `TypeName` recursive-descent parser
-/

mutual

/-- `TypeName` from `rust_type.rs`.  The `Vec<TypeName>` fields are
represented by the mutually-defined list type `TypeNameList` (so that
recursion over the tree stays structural). -/
inductive TypeName where
  | rustPath (path : RustPath)
  | prefixed (pre : Str) (typ : TypeName)
  | slice (elem : TypeName)
  | tuple (elems : TypeNameList)
  | typeAsTrait (typeName traitName : TypeName)
  | associatedPath (typeName traitName : TypeName) (associatedType : RustPath)
  | fnType (params : TypeNameList) (ret : Option TypeName)

inductive TypeNameList where
  | nil
  | cons (head : TypeName) (tail : TypeNameList)

end

/-- Build a `TypeNameList` from an ordinary list. -/
def TypeNameList.ofList : List TypeName → TypeNameList
  | [] => .nil
  | t :: ts => .cons t (TypeNameList.ofList ts)

/-- Try each candidate in order; on the first match return it together with
the remainder (the `for prefix in prefixes { strip_prefix }` pattern). -/
def stripAnyPre : List Str → Str → Option (Str × Str)
  | [], _ => none
  | p :: ps, s =>
    if p.isPrefixOf s then some (p, s.drop p.length) else stripAnyPre ps s

/-- The candidate list of `strip_indirections` in `rust_type.rs`. -/
def indirectionPres : List Str :=
  ["&".toList, "*".toList, "mut".toList, "const".toList, "dyn".toList,
    " ".toList]

/-- Fuelled worker for `strip_indirections` (each successful strip removes at
least one character, so fuel `path.length` never runs out). -/
def stripIndirectionsAux : Nat → Str → Str
  | 0, path => path
  | fuel + 1, path =>
    match stripAnyPre indirectionPres path with
    | some (_, rest) => stripIndirectionsAux fuel rest
    | none => path

/-- `strip_indirections` from `rust_type.rs`. -/
def stripIndirections (path : Str) : Str :=
  stripIndirectionsAux path.length path

/-- The leading-token candidate list of `TypeName::parse` (source order). -/
def parsePres : List Str :=
  ["*".toList, "&".toList, "const".toList, "dyn".toList, "mut".toList,
    "unsafe".toList, "extern \"C\"".toList, " ".toList]

/-- The `<`-branch scanning loop of `TypeName::parse`: walk the characters
tracking `<`/`>` nesting depth (a `>` preceded by `-` is part of `->` and
does not count), remembering the position of a depth-1 `" as "`; stop at the
position where the depth returns to 0.  The first `Nat` argument is the
remaining iteration budget (`symbol.length` at the call site, so the loop
can visit every index). -/
def angleScan (symbol : Str) : Nat → Nat → Int → Option Nat →
    Option (Nat × Option Nat)
  | 0, _, _, _ => none
  | j + 1, i, depth, asPos =>
    if i < symbol.length then
      let c := symbol.getD i ' '
      let asPos' :=
        if depth = 1 && isSubAt symbol [' ', 'a', 's', ' '] i then some i
        else asPos
      let depth' :=
        if c = '<' then depth + 1
        else if c = '>' then
          (if decide (0 < i) && (symbol.getD (i - 1) ' ' == '-') then depth
           else depth - 1)
        else depth
      if depth' = 0 then some (i, asPos')
      else angleScan symbol j (i + 1) depth' asPos'
    else none

/-- The scanning loop of `TypeName::parse_tuple`: split on commas at
parenthesis depth exactly 1, returning the `(start, end)` index pairs of the
element slices and the index of the closing parenthesis.  (`last_start`
begins at 1, skipping the opening parenthesis.)  `none` corresponds to the
`Misaligned parenthesis` failure. -/
def tupleScan (symbol : Str) : Nat → Nat → Int → Nat → List (Nat × Nat) →
    Option (List (Nat × Nat) × Nat)
  | 0, _, _, _, _ => none
  | j + 1, i, depth, lastStart, acc =>
    if i < symbol.length then
      let c := symbol.getD i ' '
      let depth' :=
        if c = '(' then depth + 1
        else if c = ')' then depth - 1
        else depth
      let accLS :=
        if c = ',' && depth = 1 then (acc ++ [(lastStart, i)], i + 1)
        else (acc, lastStart)
      if depth' = 0 then some (accLS.1 ++ [(accLS.2, i)], i)
      else tupleScan symbol j (i + 1) depth' accLS.2 accLS.1
    else none

/-- The slice `base[a..b]`. -/
def sliceStr (base : Str) (ab : Nat × Nat) : Str :=
  (base.drop ab.1).take (ab.2 - ab.1)

/-- `TypeName::parse`, with explicit fuel (every recursive call is on a
strictly shorter string, so fuel `symbol.length + 1` suffices; running out
of fuel is reported as a parse error, which every caller treats like any
other parse failure).  The element slices of a tuple are parsed after the
scan rather than during it, which can only change *which* error is reported
on malformed input, never whether parsing succeeds or its value. -/
def TypeName.parseWith : Nat → Str → Except String TypeName
  | 0, _ => .error "out of fuel"
  | fuel + 1, symbol =>
    if strStartsWith symbol ['_', '<'] then
      TypeName.parseWith fuel (symbol.drop 1)
    else
      match stripAnyPre parsePres symbol with
      | some (pre, rest) =>
        match TypeName.parseWith fuel rest with
        | .ok t => .ok (.prefixed pre t)
        | .error e => .error e
      | none =>
        if strStartsWith symbol ['f', 'n', '('] then
          let base := symbol.drop 2
          match tupleScan base base.length 0 0 1 [] with
          | none => .error "Misaligned parenthesis"
          | some (slices, endIdx) =>
            match (slices.map (sliceStr base)).mapM
                (TypeName.parseWith fuel) with
            | .error e => .error e
            | .ok params =>
              let rem := base.drop (endIdx + 1)
              match strStripPrefix rem [' ', '-', '>', ' '] with
              | some typ =>
                match TypeName.parseWith fuel typ with
                | .ok r => .ok (.fnType (TypeNameList.ofList params) (some r))
                | .error e => .error e
              | none => .ok (.fnType (TypeNameList.ofList params) none)
        else if strStartsWith symbol ['<'] then
          match angleScan symbol symbol.length 0 0 none with
          | none => .error "Bad type name"
          | some (i, asPos) =>
            match asPos with
            | some ap =>
              let typeName := (symbol.drop 1).take (ap - 1)
              let traitName := (symbol.drop (ap + 4)).take (i - (ap + 4))
              if isSubAt symbol ['>', ':', ':'] i then
                match TypeName.parseWith fuel typeName with
                | .error e => .error e
                | .ok t =>
                  match TypeName.parseWith fuel traitName with
                  | .error e => .error e
                  | .ok tr =>
                    .ok (.associatedPath t tr ⟨symbol.drop (i + 3)⟩)
              else
                match TypeName.parseWith fuel typeName with
                | .error e => .error e
                | .ok t =>
                  match TypeName.parseWith fuel traitName with
                  | .error e => .error e
                  | .ok tr => .ok (.typeAsTrait t tr)
            | none =>
              if i + 1 = symbol.length then
                .ok (.rustPath ⟨stripIndirections ((symbol.drop 1).take (i - 1))⟩)
              else .error "Unexpected characters after closing bracket"
        else if strStartsWith symbol ['('] then
          match tupleScan symbol symbol.length 0 0 1 [] with
          | none => .error "Misaligned parenthesis"
          | some (slices, endIdx) =>
            match (slices.map (sliceStr symbol)).mapM
                (TypeName.parseWith fuel) with
            | .error e => .error e
            | .ok elements =>
              if symbol.drop (endIdx + 1) = [] then
                .ok (.tuple (TypeNameList.ofList elements))
              else .error "Trailing stuff after tuple"
        else if strStartsWith symbol ['['] then
          if symbol.getLast? = some ']' then
            match rfindSub symbol [';', ' '] with
            | some semi =>
              match TypeName.parseWith fuel ((symbol.drop 1).take (semi - 1)) with
              | .ok t => .ok (.slice t)
              | .error e => .error e
            | none =>
              match TypeName.parseWith fuel
                  ((symbol.drop 1).take (symbol.length - 2)) with
              | .ok t => .ok (.slice t)
              | .error e => .error e
          else .error "Bad type name"
        else .ok (.rustPath ⟨symbol⟩)

/-- `TypeName::parse` at its natural fuel. -/
def TypeName.parse (symbol : Str) : Except String TypeName :=
  TypeName.parseWith (symbol.length + 1) symbol

mutual

/-- `TypeName::collect_path`, pushing reached module paths (with
indirections stripped) in the source's traversal order; the associated type
name of an `AssociatedPath` does not belong to a crate and is dropped. -/
def TypeName.collectPath : TypeName → List RustPath → List RustPath
  | .rustPath path, paths => paths ++ [⟨stripIndirections path.str⟩]
  | .prefixed _ typ, paths => typ.collectPath paths
  | .slice elem, paths => elem.collectPath paths
  | .tuple elems, paths => TypeNameList.collectPath elems paths
  | .typeAsTrait tn trn, paths => trn.collectPath (tn.collectPath paths)
  | .associatedPath tn trn _, paths => trn.collectPath (tn.collectPath paths)
  | .fnType params (some r), paths =>
    r.collectPath (TypeNameList.collectPath params paths)
  | .fnType params none, paths => TypeNameList.collectPath params paths

def TypeNameList.collectPath : TypeNameList → List RustPath → List RustPath
  | .nil, paths => paths
  | .cons hd tl, paths => TypeNameList.collectPath tl (hd.collectPath paths)

end

/-- `TraitFnImpl` from `rust_type.rs`: `<typename as traitname>::functionname`. -/
structure TraitFnImpl where
  typeName : TypeName
  functionName : Str

/-- `TraitFnImpl::parse`: split at the *last* occurrence of `">::"`. -/
def TraitFnImpl.parse (symbol : Str) : Except String TraitFnImpl :=
  match rfindSub symbol ['>', ':', ':'] with
  | some lastColonPos =>
    match TypeName.parse (symbol.take (lastColonPos + 1)) with
    | .ok t => .ok ⟨t, symbol.drop (lastColonPos + 3)⟩
    | .error e => .error e
  | none => .error "Not a trait implementation symbol"

/-- `TraitFnImpl::paths`: collect the module paths of the `Self` type and the
trait. -/
def TraitFnImpl.paths (ti : TraitFnImpl) : List RustPath :=
  ti.typeName.collectPath []

/-!
## `symbol.rs` — `FunctionOrPath::from_demangled`
-/

/-- `FunctionOrPath` from `symbol.rs`. -/
inductive FunctionOrPath where
  | function (name : Str)
  | rustPath (path : RustPath)
deriving DecidableEq, Repr

/-- `FunctionOrPath::from_demangled`.  The `panic!("Weird symbol: …")` of the
source (a `rustc[`-prefixed name with no `]::`) is modelled as an
`Except.error` whose message starts with `panic:`. -/
def FunctionOrPath.fromDemangled (demangled : Str) :
    Except String (List FunctionOrPath) :=
  if strStartsWith demangled "rustc[".toList then
    match findSub demangled [']', ':', ':'] with
    | some endBracket => .ok [.function (demangled.drop (endBracket + 3))]
    | none => .error "panic: Weird symbol"
  else
    match TraitFnImpl.parse demangled with
    | .ok traitImpl =>
      .ok ((traitImpl.paths.filter
        -- probably a built-in type or generic:
        (fun path => path.segments.length > 1)).map FunctionOrPath.rustPath)
    | .error _ =>
      if containsSub demangled [':', ':'] then .ok [.rustPath ⟨demangled⟩]
      else .ok [.function demangled]

/-!
## `crate_name.rs` / `capabara/src/tree.rs`
-/

/-- `CrateName` from `crate_name.rs`: a crate name normalized to
`snake_case`. -/
structure CrateName where
  name : Str
deriving DecidableEq, Repr

/-- `CrateName::new`: validate and normalize (`-` becomes `_`; only ASCII
alphanumerics and `_`; must not be empty or start with a digit). -/
def CrateName.new (nameIn : Str) : Except String CrateName :=
  if nameIn = [] then .error "Crate name cannot be empty"
  else
    let normalized := nameIn.map (fun c => if c = '-' then '_' else c)
    if !(normalized.all (fun c => c.isAlphanum || c = '_')) then
      .error "Invalid crate name: contains invalid characters"
    else if (match normalized.head? with
        | some c => c.isDigit
        | none => false) then
      .error "Invalid crate name: cannot start with a digit"
    else .ok ⟨normalized⟩

/-- `is_standard_crate` from `capabara/src/tree.rs` (the implementation of
the standard-crate test: `["alloc", "core", "std"].contains(&crate_name)`). -/
def isStandardCrate (crateName : Str) : Bool :=
  ["alloc".toList, "core".toList, "std".toList].contains crateName

/-!
## `capability.rs` — `DeducedCaps::add_symbol`
-/

/-- `SymbolScope` from `symbol.rs`. -/
inductive SymbolScope where
  | unknown
  | compilation
  | linkage
  | dynamic
deriving DecidableEq, Repr

/-- `SymbolKind` from `symbol.rs` (`sectionKind` stands for the Rust variant
`Section`, which is a keyword in Lean). -/
inductive SymbolKind where
  | unknown
  | text
  | data
  | sectionKind
  | file
  | label
  | tls
deriving DecidableEq, Repr

/-- `Symbol` from `symbol.rs`. -/
structure Symbol where
  mangled : Str
  demangled : Str
  scope : SymbolScope
  kind : SymbolKind
deriving DecidableEq, Repr

/-- `Reason` from `capability.rs` (the evidence for a capability). -/
inductive Reason where
  | pathMatchedRule (path : RustPath)
  | symbolMatchedRule (symbol : Symbol)
  | sourceParseError (err : Str)
  | unmatchedSymbol (symbol : Symbol)
  | umatchedStandardPath (path : RustPath)
  | sourceCodeAnalysis
  | crate (crateName : CrateName)
deriving DecidableEq, Repr

/-- `DeducedCaps` from `capability.rs`.  The two `BTreeMap`s are modelled as
total functions into `Finset` (an absent key behaves exactly like the empty
set under `entry(k).or_default()`). -/
structure DeducedCaps where
  caps : Capability → Finset Reason
  unresolvedCrates : CrateName → Finset RustPath

/-- `DeducedCaps::default()`. -/
def DeducedCaps.empty : DeducedCaps := ⟨fun _ => ∅, fun _ => ∅⟩

/-- `self.caps.entry(c).or_default().insert(r)`. -/
def insertCap (caps : Capability → Finset Reason) (c : Capability)
    (r : Reason) : Capability → Finset Reason :=
  fun c' => if c' = c then insert r (caps c') else caps c'

/-- The `for &capability in capabilities { … insert(reason) }` loop: the same
reason is recorded under every capability of the matched rule. -/
def insertCapsAll (caps : Capability → Finset Reason)
    (capabilities : CapabilitySet) (r : Reason) :
    Capability → Finset Reason :=
  fun c' => if c' ∈ capabilities then insert r (caps c') else caps c'

/-- One iteration of the `for path in symbol.paths()` loop body of
`DeducedCaps::add_symbol`.  Indexing `segments[0]` on an empty segment list
(impossible for paths produced by `from_demangled`) and the propagated
`CrateName::new` failure are both modelled as `Except.error`. -/
def DeducedCaps.addFunctionOrPath (rules : Rules) (symbol : Symbol)
    (dc : DeducedCaps) : FunctionOrPath → Except String DeducedCaps
  | .function funName =>
    -- `let fun_name = fun_name.trim_start_matches('_')`, inlined:
    match rules.matchSymbol (trimStartMatches funName '_') with
    | some capabilities =>
      .ok { dc with
        caps := insertCapsAll dc.caps capabilities (.symbolMatchedRule symbol) }
    | none =>
      .ok { dc with
        caps := insertCap dc.caps .unknown (.unmatchedSymbol symbol) }
  | .rustPath rustPath =>
    match rules.matchSymbol rustPath.str with
    | some capabilities =>
      .ok { dc with
        caps := insertCapsAll dc.caps capabilities (.pathMatchedRule rustPath) }
    | none =>
      -- no rule matched
      match rustPath.segments with
      | [] => .error "panic: index out of bounds"
      | seg0 :: _ =>
        match CrateName.new seg0 with
        | .error e => .error e
        | .ok crateName =>
          if isStandardCrate crateName.name then
            .ok { dc with
              caps := insertCap dc.caps .unknown
                (.umatchedStandardPath rustPath) }
          else
            -- assume an external crate:
            .ok { dc with
              unresolvedCrates := fun k =>
                if k = crateName then insert rustPath (dc.unresolvedCrates k)
                else dc.unresolvedCrates k }

/-- `DeducedCaps::add_symbol`: deduce capabilities from one symbol's decoded
name (`symbol.paths()` is `from_demangled(symbol.demangled)`). -/
def DeducedCaps.addSymbol (rules : Rules) (dc : DeducedCaps)
    (symbol : Symbol) : Except String DeducedCaps :=
  match FunctionOrPath.fromDemangled symbol.demangled with
  | .error e => .error e
  | .ok paths =>
    paths.foldlM (fun dc fp => DeducedCaps.addFunctionOrPath rules symbol dc fp) dc

end Deduce

/-!
# Theorems

The lemmas and claim theorems over the embedding above.
-/

namespace CapRule

lemma scanFold_eq_pairs (symbol : Str) (rule : Rule) :
    ∀ (ps : List Pattern) (best : Option (Rule × Nat)),
      ps.foldl
        (fun best m =>
          match m with
          | Pattern.exact pat =>
            if pat = symbol then considerMatch rule pat.length best else best
          | Pattern.startsWith pat =>
            if strStartsWith symbol pat then considerMatch rule pat.length best
            else best)
        best
      = (ps.map fun p => (rule, p)).foldl (stepPair symbol) best
  | [], _ => rfl
  | p :: ps, best => by
    cases p with
    | exact pat =>
      simp only [List.foldl_cons, List.map_cons, stepPair, Pattern.matchesSym,
        Pattern.text, decide_eq_true_eq]
      by_cases h : pat = symbol <;> simp only [h, if_true, if_false] <;>
        exact scanFold_eq_pairs symbol rule ps _
    | startsWith pat =>
      simp only [List.foldl_cons, List.map_cons, stepPair, Pattern.matchesSym,
        Pattern.text]
      by_cases h : strStartsWith symbol pat <;>
        simp only [h, if_true, if_false, Bool.false_eq_true] <;>
        exact scanFold_eq_pairs symbol rule ps _

lemma scanRule_eq_pairs (symbol : Str) (best : Option (Rule × Nat)) (rule : Rule) :
    scanRule symbol best rule
      = (rule.pattern.map fun p => (rule, p)).foldl (stepPair symbol) best :=
  scanFold_eq_pairs symbol rule rule.pattern best

lemma foldl_rules_eq_pairs (symbol : Str) :
    ∀ (l : List Rule) (best : Option (Rule × Nat)),
      l.foldl (scanRule symbol) best
        = (l.flatMap fun r => r.pattern.map fun p => (r, p)).foldl (stepPair symbol) best
  | [], _ => rfl
  | r :: l, best => by
    simp only [List.foldl_cons, List.flatMap_cons, List.foldl_append]
    rw [scanRule_eq_pairs, foldl_rules_eq_pairs symbol l]

lemma goodPairs_foldl (symbol : Str) :
    ∀ (l acc : List (Rule × Pattern)) (best : Option (Rule × Nat)),
      goodPairs symbol acc best →
      goodPairs symbol (acc ++ l) (l.foldl (stepPair symbol) best)
  | [], acc, best, h => by simpa using h
  | rp :: l, acc, best, h => by
    have step : goodPairs symbol (acc ++ [rp]) (stepPair symbol best rp) := by
      unfold stepPair
      by_cases hm : rp.2.matchesSym symbol
      · simp only [hm, if_true]
        cases best with
        | none =>
          refine ⟨⟨rp, by simp, rfl, hm, rfl⟩, ?_⟩
          intro rp' hrp' hm'
          rcases List.mem_append.mp hrp' with h' | h'
          · exact absurd hm' (h rp' h')
          · simp only [List.mem_singleton] at h'
            subst h'; exact le_refl _
        | some best' =>
          obtain ⟨r, spec⟩ := best'
          obtain ⟨⟨rpw, hrpw, hrpw1, hrpw2, hrpw3⟩, hbound⟩ := h
          unfold considerMatch
          by_cases hgt : rp.2.text.length > spec
          · simp only [hgt, if_true]
            refine ⟨⟨rp, by simp, rfl, hm, rfl⟩, ?_⟩
            intro rp' hrp' hm'
            rcases List.mem_append.mp hrp' with h' | h'
            · exact le_trans (hbound rp' h' hm') (le_of_lt hgt)
            · simp only [List.mem_singleton] at h'
              subst h'; exact le_refl _
          · simp only [hgt, if_false]
            refine ⟨⟨rpw, List.mem_append_left _ hrpw, hrpw1, hrpw2, hrpw3⟩, ?_⟩
            intro rp' hrp' hm'
            rcases List.mem_append.mp hrp' with h' | h'
            · exact hbound rp' h' hm'
            · simp only [List.mem_singleton] at h'
              subst h'; exact Nat.le_of_not_lt hgt
      · simp only [hm, if_false]
        cases best with
        | none =>
          intro rp' hrp'
          rcases List.mem_append.mp hrp' with h' | h'
          · exact h rp' h'
          · simp only [List.mem_singleton] at h'
            subst h'; exact hm
        | some best' =>
          obtain ⟨r, spec⟩ := best'
          obtain ⟨⟨rpw, hrpw, hrpw1, hrpw2, hrpw3⟩, hbound⟩ := h
          refine ⟨⟨rpw, List.mem_append_left _ hrpw, hrpw1, hrpw2, hrpw3⟩, ?_⟩
          intro rp' hrp' hm'
          rcases List.mem_append.mp hrp' with h' | h'
          · exact hbound rp' h' hm'
          · simp only [List.mem_singleton] at h'
            subst h'; exact absurd hm' hm
    have := goodPairs_foldl symbol l (acc ++ [rp]) _ step
    simpa using this

lemma goodPairs_matchSymbol (rs : Rules) (symbol : Str) :
    goodPairs symbol rs.allPairs (rs.rules.foldl (scanRule symbol) none) := by
  rw [foldl_rules_eq_pairs]
  have := goodPairs_foldl symbol
    (rs.rules.flatMap fun r => r.pattern.map fun p => (r, p)) [] none
    (by intro rp hrp; simp at hrp)
  simpa [Rules.allPairs] using this

lemma mem_allPairs {rs : Rules} {rp : Rule × Pattern} :
    rp ∈ rs.allPairs ↔ rp.1 ∈ rs.rules ∧ rp.2 ∈ rp.1.pattern := by
  obtain ⟨r, p⟩ := rp
  simp only [Rules.allPairs, List.mem_flatMap, List.mem_map, Prod.mk.injEq]
  constructor
  · rintro ⟨r', hr', p', hp', rfl, rfl⟩
    exact ⟨hr', hp'⟩
  · rintro ⟨hr, hp⟩
    exact ⟨r, hr, p, hp, rfl, rfl⟩

/-- **C1.** For every symbol string and rule table: if any pattern matches
(an `Exact` pattern equal to the symbol, or a `StartsWith` pattern the symbol
starts with), `Rules::match_symbol` returns the capability set of a rule
owning a matching pattern of maximal length (so a longer matching pattern
always beats a shorter one), and it returns `None` when no pattern matches. -/
theorem c1_match_symbol_longest_match (rs : Rules) (symbol : Str) :
    (¬ rs.someMatch symbol → rs.matchSymbol symbol = none) ∧
    (rs.someMatch symbol →
      ∃ r ∈ rs.rules, ∃ p ∈ r.pattern, p.matchesSym symbol ∧
        rs.matchSymbol symbol = some r.caps ∧
        ∀ r' ∈ rs.rules, ∀ p' ∈ r'.pattern,
          p'.matchesSym symbol → p'.text.length ≤ p.text.length) := by
  have hgood := goodPairs_matchSymbol rs symbol
  cases hres : rs.rules.foldl (scanRule symbol) none with
  | none =>
    rw [hres] at hgood
    refine ⟨fun _ => by simp [Rules.matchSymbol, hres], fun hyes => ?_⟩
    obtain ⟨r, hr, p, hp, hm⟩ := hyes
    exact absurd hm (hgood (r, p) (mem_allPairs.mpr ⟨hr, hp⟩))
  | some best =>
    obtain ⟨r, spec⟩ := best
    rw [hres] at hgood
    obtain ⟨⟨rp, hrp, hrp1, hrp2, hrp3⟩, hbound⟩ := hgood
    obtain ⟨hr, hp⟩ := mem_allPairs.mp hrp
    constructor
    · intro hno
      exact absurd ⟨rp.1, hr, rp.2, hp, hrp2⟩ hno
    · intro _
      refine ⟨rp.1, hr, rp.2, hp, hrp2, ?_, ?_⟩
      · simp [Rules.matchSymbol, hres, hrp1]
      · intro r' hr' p' hp' hm'
        have h' : p'.text.length ≤ spec :=
          hbound (r', p') (mem_allPairs.mpr ⟨hr', hp'⟩) hm'
        rw [hrp3]
        exact h'

/-- Witness for C1: a table where both a 5-character and a 9-character prefix
pattern match `"std::io::read"`; the conclusion produces the winning rule. -/
theorem c1_match_symbol_longest_match_witness :
    (Rules.someMatch
      ⟨[⟨[Pattern.startsWith "std::".toList], {Capability.unknown}⟩,
        ⟨[Pattern.startsWith "std::io::".toList], {Capability.fs}⟩]⟩
      "std::io::read".toList) ∧
    (∃ r ∈ (Rules.mk
        [⟨[Pattern.startsWith "std::".toList], {Capability.unknown}⟩,
         ⟨[Pattern.startsWith "std::io::".toList], {Capability.fs}⟩]).rules,
      ∃ p ∈ r.pattern, p.matchesSym "std::io::read".toList ∧
        (Rules.mk
          [⟨[Pattern.startsWith "std::".toList], {Capability.unknown}⟩,
           ⟨[Pattern.startsWith "std::io::".toList], {Capability.fs}⟩]).matchSymbol
            "std::io::read".toList = some r.caps ∧
        ∀ r' ∈ (Rules.mk
          [⟨[Pattern.startsWith "std::".toList], {Capability.unknown}⟩,
           ⟨[Pattern.startsWith "std::io::".toList], {Capability.fs}⟩]).rules,
          ∀ p' ∈ r'.pattern, p'.matchesSym "std::io::read".toList →
            p'.text.length ≤ p.text.length) :=
  ⟨by decide,
   (c1_match_symbol_longest_match _ _).2 (by decide)⟩

end CapRule

namespace BuildGraph

/-- **C3 (counterexample).** A `Build` edge out of a dependent already classed
`Unknown` yields `{Build}`, not `{Unknown}`: the `(DepKind::Build, _)` match
arm precedes the "Unknown is viral" arm, so an `Unknown` dependent class does
*not* always force `Unknown` onto the dependency. -/
theorem c3_counterexample :
    dependencyKindFromEdgeAndDependent {DepKind.build} {DepKind.unknown}
        = {DepKind.build} ∧
      DepKind.unknown ∉
        dependencyKindFromEdgeAndDependent {DepKind.build} {DepKind.unknown} := by
  decide

/-- **C3 (amended).** The combination table, in the order the code checks it:
a dependent class of `ProcMacro` always yields `ProcMacro`; otherwise a
`Normal` edge inherits the dependent's class unchanged; otherwise a `Build`
edge yields `Build`, a `Dev` edge yields `Dev`, a `ProcMacro` edge yields
`ProcMacro`; only the remaining cases — an `Unknown` edge kind into a
non-`ProcMacro` dependent — yield `Unknown`.  (An `Unknown` dependent class is
viral only along `Normal` and `Unknown` edges.)  The set-level function is the
image of this combination over all (edge kind, dependent class) pairs. -/
theorem c3_amended_combination_table :
    (∀ e, combineKind e .procMacro = .procMacro) ∧
    (∀ c, combineKind .normal c = c) ∧
    (combineKind .build .unknown = .build ∧ combineKind .build .normal = .build ∧
      combineKind .build .build = .build ∧ combineKind .build .dev = .build) ∧
    (combineKind .dev .unknown = .dev ∧ combineKind .dev .normal = .dev ∧
      combineKind .dev .build = .dev ∧ combineKind .dev .dev = .dev) ∧
    (combineKind .procMacro .unknown = .procMacro ∧
      combineKind .procMacro .normal = .procMacro ∧
      combineKind .procMacro .build = .procMacro ∧
      combineKind .procMacro .dev = .procMacro) ∧
    (combineKind .unknown .unknown = .unknown ∧
      combineKind .unknown .normal = .unknown ∧
      combineKind .unknown .build = .unknown ∧
      combineKind .unknown .dev = .unknown) ∧
    (∀ d c, dependencyKindFromEdgeAndDependent {d} {c} = {combineKind d c}) := by
  decide

lemma processEdges_kinds_mono {n : Nat} (nodeKind : Finset DepKind) :
    ∀ (es : List (Fin n × Finset DepKind)) (kinds : Fin n → Finset DepKind)
      (queue : List (Fin n)) (j : Fin n),
      kinds j ⊆ (processEdges nodeKind es kinds queue).1 j
  | [], _, _, _ => fun _ h => h
  | (dep, ekind) :: rest, kinds, queue, j => by
    unfold processEdges
    by_cases hmiss :
        dependencyKindFromEdgeAndDependent ekind nodeKind \ kinds dep = ∅
    · simp only [hmiss, if_true]
      exact processEdges_kinds_mono nodeKind rest kinds queue j
    · simp only [hmiss, if_false]
      refine subset_trans ?_ (processEdges_kinds_mono nodeKind rest _ _ j)
      by_cases hj : j = dep
      · subst hj
        rw [Function.update_same]
        exact Finset.subset_union_left
      · rw [Function.update_noteq hj]

lemma gap_update {n : Nat} (kinds : Fin n → Finset DepKind) (dep : Fin n)
    (missing : Finset DepKind) (hdisj : missing ∩ kinds dep = ∅) :
    (∑ i : Fin n,
        ((Finset.univ : Finset DepKind) \
          Function.update kinds dep (kinds dep ∪ missing) i).card)
      = (∑ i : Fin n, ((Finset.univ : Finset DepKind) \ kinds i).card)
        - missing.card := by
  set f : Fin n → Nat := fun i => ((Finset.univ : Finset DepKind) \ kinds i).card
    with hf
  have hsub : missing ⊆ (Finset.univ : Finset DepKind) \ kinds dep := by
    intro x hx
    refine Finset.mem_sdiff.mpr ⟨Finset.mem_univ x, fun hxk => ?_⟩
    have hmem : x ∈ missing ∩ kinds dep := Finset.mem_inter.mpr ⟨hx, hxk⟩
    simp [hdisj] at hmem
  have hcard : missing.card ≤ f dep := by
    have := Finset.card_le_card hsub
    simpa [hf] using this
  have hpoint : ((Finset.univ : Finset DepKind) \ (kinds dep ∪ missing)).card
      = f dep - missing.card := by
    have hset : (Finset.univ : Finset DepKind) \ (kinds dep ∪ missing)
        = ((Finset.univ : Finset DepKind) \ kinds dep) \ missing := by
      ext x
      simp only [Finset.mem_sdiff, Finset.mem_union]
      tauto
    rw [hset, Finset.card_sdiff hsub]
  have hupd : (fun i => ((Finset.univ : Finset DepKind) \
        Function.update kinds dep (kinds dep ∪ missing) i).card)
      = Function.update f dep (f dep - missing.card) := by
    funext i
    by_cases hi : i = dep
    · subst hi
      rw [Function.update_same, Function.update_same]
      exact hpoint
    · rw [Function.update_noteq hi, Function.update_noteq hi]
  rw [hupd, Finset.sum_update_of_mem (Finset.mem_univ dep),
    Finset.sum_eq_sum_diff_singleton_add (Finset.mem_univ dep) f]
  omega

lemma processEdges_measure {n : Nat} (nodeKind : Finset DepKind) :
    ∀ (es : List (Fin n × Finset DepKind)) (kinds : Fin n → Finset DepKind)
      (queue : List (Fin n)),
      (∑ i : Fin n, ((Finset.univ : Finset DepKind) \
          (processEdges nodeKind es kinds queue).1 i).card)
        + (processEdges nodeKind es kinds queue).2.length
      ≤ (∑ i : Fin n, ((Finset.univ : Finset DepKind) \ kinds i).card)
        + queue.length
  | [], _, _ => le_refl _
  | (dep, ekind) :: rest, kinds, queue => by
    unfold processEdges
    by_cases hmiss :
        dependencyKindFromEdgeAndDependent ekind nodeKind \ kinds dep = ∅
    · simp only [hmiss, if_true]
      exact processEdges_measure nodeKind rest kinds queue
    · simp only [hmiss, if_false]
      refine le_trans (processEdges_measure nodeKind rest _ _) ?_
      have hdisj :
          (dependencyKindFromEdgeAndDependent ekind nodeKind \ kinds dep)
            ∩ kinds dep = ∅ := by
        ext x
        simp only [Finset.mem_inter, Finset.mem_sdiff, Finset.not_mem_empty,
          iff_false]
        tauto
      rw [gap_update kinds dep _ hdisj]
      have hpos : 1 ≤
          (dependencyKindFromEdgeAndDependent ekind nodeKind \ kinds dep).card :=
        Finset.card_pos.mpr (Finset.nonempty_iff_ne_empty.mpr hmiss)
      have hle : (dependencyKindFromEdgeAndDependent ekind nodeKind \
            kinds dep).card
          ≤ ∑ i : Fin n, ((Finset.univ : Finset DepKind) \ kinds i).card := by
        calc (dependencyKindFromEdgeAndDependent ekind nodeKind \
              kinds dep).card
            ≤ ((Finset.univ : Finset DepKind) \ kinds dep).card := by
              apply Finset.card_le_card
              intro x hx
              exact Finset.mem_sdiff.mpr
                ⟨Finset.mem_univ x, (Finset.mem_sdiff.mp hx).2⟩
          _ ≤ _ :=
              Finset.single_le_sum
                (f := fun i : Fin n =>
                  ((Finset.univ : Finset DepKind) \ kinds i).card)
                (fun i _ => Nat.zero_le _) (Finset.mem_univ dep)
      simp only [List.length_append, List.length_singleton]
      omega

lemma floodStep_measure {n : Nat} (edges : EdgeList n) (s s' : FloodState n)
    (h : floodStep edges s = some s') : floodMeasure s' < floodMeasure s := by
  unfold floodStep at h
  cases hq : s.queue with
  | nil => rw [hq] at h; exact absurd h (by simp)
  | cons i rest =>
    rw [hq] at h
    simp only [Option.some.injEq] at h
    subst h
    have hm := processEdges_measure (n := n) (s.kinds i)
      ((edges.filter (fun e => e.1 = i)).map (fun e => e.2)) s.kinds rest
    unfold floodMeasure
    simp only [hq, List.length_cons]
    omega

lemma floodStep_none_iff {n : Nat} (edges : EdgeList n) (s : FloodState n) :
    floodStep edges s = none ↔ s.queue = [] := by
  unfold floodStep
  cases s.queue <;> simp

lemma floodRun_empties {n : Nat} (edges : EdgeList n) :
    ∀ (fuel : Nat) (s : FloodState n), floodMeasure s ≤ fuel →
      (floodRun edges fuel s).queue = []
  | 0, s, h => by
    have : s.queue.length = 0 := by
      unfold floodMeasure at h
      omega
    simpa [floodRun] using List.length_eq_zero.mp this
  | fuel + 1, s, h => by
    unfold floodRun
    cases hstep : floodStep edges s with
    | none => exact (floodStep_none_iff edges s).mp hstep
    | some s' =>
      have := floodStep_measure edges s s' hstep
      exact floodRun_empties edges fuel s' (by omega)

/-- **C4.** The usage-class flood-fill of `compute_dependency_kinds` is
monotone — one loop iteration never removes a kind from any node's set — and
it terminates: running it for `floodMeasure s` iterations (at most
`|nodes| · |classes|` kind-gains plus the initial queue length) empties the
work queue, for every input graph, cyclic or not. -/
theorem c4_flood_fill_monotone_and_terminates {n : Nat} (edges : EdgeList n)
    (s : FloodState n) :
    (∀ j : Fin n, s.kinds j ⊆ (floodStepTotal edges s).kinds j) ∧
    (floodRun edges (floodMeasure s) s).queue = [] ∧
    floodMeasure s ≤ n * Fintype.card DepKind + s.queue.length := by
  refine ⟨?_, floodRun_empties edges _ s (le_refl _), ?_⟩
  · intro j
    unfold floodStepTotal floodStep
    cases hq : s.queue with
    | nil => simp
    | cons i rest =>
      simp only [Option.getD_some]
      exact processEdges_kinds_mono (s.kinds i) _ s.kinds rest j
  · unfold floodMeasure
    have hgap : (∑ i : Fin n, ((Finset.univ : Finset DepKind) \
          s.kinds i).card)
        ≤ n * Fintype.card DepKind := by
      calc (∑ i : Fin n, ((Finset.univ : Finset DepKind) \ s.kinds i).card)
          ≤ ∑ _i : Fin n, Fintype.card DepKind := by
            apply Finset.sum_le_sum
            intro i _
            calc ((Finset.univ : Finset DepKind) \ s.kinds i).card
                ≤ (Finset.univ : Finset DepKind).card :=
                  Finset.card_le_card (Finset.sdiff_subset)
              _ = Fintype.card DepKind := rfl
        _ = n * Fintype.card DepKind := by
            rw [Finset.sum_const, Finset.card_univ, Fintype.card_fin,
              smul_eq_mul]
    omega

end BuildGraph

namespace AnyCaps

/-- **C5 (counterexample).** The collapse-to-`{Any}` rule is *not*
unconditional: in `checker.rs` the allow-list is consulted first, so an
actual capability set containing the catch-all `Any`, filtered against an
allow-list that also contains `Any`, yields the empty set rather than the
singleton `{Any}`. -/
theorem c5_counterexample :
    checkerFilterCapabilities {Capability.any} {Capability.any} = ∅ ∧
      checkerFilterCapabilities {Capability.any} {Capability.any}
        ≠ {Capability.any} := by
  decide

/-- **C5 (amended).** Catch-all absorption holds as follows: the analyzer
filter collapses any set containing `Any` to exactly `{Any}` regardless of
the ignore list; the checker filter does the same *provided* the allow-list
does not itself contain `Any` (an allow-list with `Any` allows everything,
producing the empty set). -/
theorem c5_amended_any_absorption
    (caps ignoredCaps actualCaps allowedCaps : CapabilitySet) :
    (Capability.any ∈ caps →
      analyzerFilterCapabilities caps ignoredCaps = {Capability.any}) ∧
    (Capability.any ∈ actualCaps → Capability.any ∉ allowedCaps →
      checkerFilterCapabilities actualCaps allowedCaps = {Capability.any}) := by
  constructor
  · intro h
    simp [analyzerFilterCapabilities, h]
  · intro hin hnot
    simp [checkerFilterCapabilities, hin, hnot]

/-- Witness for C5 (amended), at concrete capability sets. -/
theorem c5_amended_any_absorption_witness :
    (Capability.any ∈ ({Capability.any, Capability.net} : CapabilitySet) →
      analyzerFilterCapabilities {Capability.any, Capability.net}
        {Capability.alloc} = {Capability.any}) ∧
    (Capability.any ∈ ({Capability.any, Capability.net} : CapabilitySet) →
      Capability.any ∉ ({Capability.alloc} : CapabilitySet) →
      checkerFilterCapabilities {Capability.any, Capability.net}
        {Capability.alloc} = {Capability.any}) :=
  c5_amended_any_absorption {Capability.any, Capability.net}
    {Capability.alloc} {Capability.any, Capability.net} {Capability.alloc}

/-- **C10.** If the per-crate allow-list contains the catch-all `Any`, the
checker's `filter_capabilities` returns the empty set for *every* actual
capability set — everything (including `Any` itself) is treated as allowed
and nothing is flagged. -/
theorem c10_any_allow_list_allows_everything
    (actualCaps allowedCaps : CapabilitySet)
    (h : Capability.any ∈ allowedCaps) :
    checkerFilterCapabilities actualCaps allowedCaps = ∅ := by
  simp [checkerFilterCapabilities, h]

/-- Witness for C10 at concrete sets. -/
theorem c10_any_allow_list_allows_everything_witness :
    Capability.any ∈ ({Capability.any} : CapabilitySet) ∧
    checkerFilterCapabilities
      {Capability.net, Capability.fopen, Capability.any} {Capability.any} = ∅ :=
  ⟨by decide,
   c10_any_allow_list_allows_everything
     {Capability.net, Capability.fopen, Capability.any} {Capability.any}
     (by decide)⟩

end AnyCaps

namespace Demangle

lemma find?_reverse_range (P : Nat → Bool) :
    ∀ (n p : Nat), p < n → P p = true →
      (∀ q, p < q → q < n → P q = false) →
      (List.range n).reverse.find? P = some p
  | 0, p, hp, _, _ => absurd hp (Nat.not_lt_zero p)
  | n + 1, p, hp, hP, hafter => by
    rw [List.range_succ, List.reverse_append]
    simp only [List.reverse_singleton, List.singleton_append, List.find?_cons]
    by_cases hpn : p = n
    · subst hpn
      simp [hP]
    · have hplt : p < n := by omega
      have hPn : P n = false := hafter n hplt (Nat.lt_succ_self n)
      simp only [hPn]
      exact find?_reverse_range P n p hplt hP
        (fun q hq1 hq2 => hafter q hq1 (Nat.lt_succ_of_lt hq2))

lemma rfindSub_eq_some (s pat : Str) (p : Nat) (hp : p ≤ s.length)
    (hmatch : isSubAt s pat p = true)
    (hafter : ∀ q, p < q → q ≤ s.length → isSubAt s pat q = false) :
    rfindSub s pat = some p := by
  unfold rfindSub
  exact find?_reverse_range _ (s.length + 1) p (by omega) hmatch
    (fun q hq1 hq2 => hafter q hq1 (by omega))

lemma rfindSub_eq_none_iff (s pat : Str) :
    rfindSub s pat = none ↔ findSub s pat = none := by
  unfold rfindSub findSub
  rw [List.find?_eq_none, List.find?_eq_none]
  constructor <;> intro h x hx <;>
    exact h x (by simpa [List.mem_reverse] using hx)

lemma hex_head_not_colon_prefix (hx : Str) (hall : hx.all isHexChar = true) :
    ∀ (m : Nat), m < hx.length →
      (([':', ':', 'h'] : Str).isPrefixOf (hx.drop m)) = false := by
  intro m hm
  have hcons : hx.drop m = hx.get ⟨m, hm⟩ :: hx.drop (m + 1) :=
    List.drop_eq_getElem_cons hm
  rw [hcons]
  have hmem : hx.get ⟨m, hm⟩ ∈ hx := List.get_mem hx m hm
  have hhex : isHexChar (hx.get ⟨m, hm⟩) = true := by
    rw [List.all_eq_true] at hall
    exact hall _ hmem
  simp only [List.isPrefixOf, Bool.and_eq_false_iff]
  left
  cases hco : (':' == hx.get ⟨m, hm⟩) with
  | false => rfl
  | true =>
    exfalso
    have hce : (':' : Char) = hx.get ⟨m, hm⟩ := eq_of_beq hco
    rw [← hce] at hhex
    exact absurd hhex (by decide)

lemma rfindSub_of_endsInHashSuffix (s : Str)
    (h : endsInHashSuffixSpec s = true) :
    rfindSub s ([':', ':', 'h'] : Str) = some (s.length - 19) := by
  unfold endsInHashSuffixSpec at h
  simp only [Bool.and_eq_true, decide_eq_true_eq] at h
  obtain ⟨⟨hlen, htake⟩, hall⟩ := h
  set L := s.length with hL
  set k := L - 19 with hk
  set t := s.drop k with ht
  have htlen : t.length = 19 := by
    rw [ht, List.length_drop]
    omega
  have hteq : t = ':' :: ':' :: 'h' :: t.drop 3 := by
    conv_lhs => rw [← List.take_append_drop 3 t]
    rw [htake]
    rfl
  set hx := t.drop 3 with hhx
  have hxlen : hx.length = 16 := by
    rw [hhx, List.length_drop, htlen]
  have hxall : hx.all isHexChar = true := by
    have : hx = s.drop (L - 16) := by
      rw [hhx, ht, List.drop_drop]
      congr 1
      omega
    rw [this]
    exact hall
  apply rfindSub_eq_some s _ k (by omega)
  · unfold isSubAt
    rw [← ht, hteq]
    simp [List.isPrefixOf]
  · intro q hq1 hq2
    have hdq : s.drop q = t.drop (q - k) := by
      rw [ht, List.drop_drop]
      congr 1
      omega
    set d := q - k with hd
    have hd1 : 1 ≤ d := by omega
    have hd19 : d ≤ 19 := by omega
    unfold isSubAt
    rw [hdq]
    by_cases hc1 : d = 1
    · rw [hc1, hteq]
      simp [List.isPrefixOf]
    · by_cases hc2 : d = 2
      · rw [hc2, hteq]
        simp [List.isPrefixOf]
      · by_cases hc3 : d ≤ 16
        · have hdd : t.drop d = hx.drop (d - 3) := by
            rw [hteq]
            obtain ⟨e, he⟩ : ∃ e, d = e + 3 := ⟨d - 3, by omega⟩
            rw [he]
            have h1 : e + 3 - 3 = e := by omega
            rw [h1]
            rfl
          rw [hdd]
          exact hex_head_not_colon_prefix hx hxall (d - 3) (by omega)
        · have hlen2 : (t.drop d).length ≤ 2 := by
            rw [List.length_drop, htlen]
            omega
          cases hpre : (([':', ':', 'h'] : Str).isPrefixOf (t.drop d)) with
          | false => rfl
          | true =>
            exfalso
            have := (List.isPrefixOf_iff_prefix.mp hpre).length_le
            simp at this
            omega

/-- **C8 (counterexample).** The stripping step validates nothing after
`::h`: the decoded name `"foo::hello"` does not end in a `::h<16 hex>`
disambiguator, yet the step truncates it to `"foo"`. -/
theorem c8_counterexample :
    endsInHashSuffixSpec "foo::hello".toList = false ∧
    stripHashSuffix "foo::hello".toList = "foo".toList ∧
    stripHashSuffix "foo::hello".toList ≠ "foo::hello".toList := by
  refine ⟨by decide, by decide, by decide⟩

/-- **C8 (amended).** The suffix-stripping step truncates at the *last
occurrence of `"::h"` anywhere in the name*, without checking that what
follows is 16 hex characters.  Consequently: a name containing no `"::h"` at
all is left unchanged, and a name that does end in a disambiguator of the
exact shape `::h<16 hex chars>` loses exactly those 19 trailing
characters. -/
theorem c8_amended_strip_hash_suffix (s : Str) :
    (containsSub s ([':', ':', 'h'] : Str) = false → stripHashSuffix s = s) ∧
    (endsInHashSuffixSpec s = true →
      stripHashSuffix s = s.take (s.length - 19)) := by
  constructor
  · intro h
    unfold stripHashSuffix
    have hnone : rfindSub s ([':', ':', 'h'] : Str) = none := by
      rw [rfindSub_eq_none_iff]
      unfold containsSub at h
      exact Option.not_isSome_iff_eq_none.mp (by simp [h])
    rw [hnone]
  · intro h
    unfold stripHashSuffix
    rw [rfindSub_of_endsInHashSuffix s h]

/-- Witness for C8 (amended): a name with no `"::h"` is untouched, and the
spec's round-trip example `test::hello::hef349e8e72b897f3` loses exactly its
19-character disambiguator. -/
theorem c8_amended_strip_hash_suffix_witness :
    (containsSub "foobar".toList ([':', ':', 'h'] : Str) = false ∧
      stripHashSuffix "foobar".toList = "foobar".toList) ∧
    (endsInHashSuffixSpec "test::hello::hef349e8e72b897f3".toList = true ∧
      stripHashSuffix "test::hello::hef349e8e72b897f3".toList
        = "test::hello::hef349e8e72b897f3".toList.take
            ("test::hello::hef349e8e72b897f3".toList.length - 19)) :=
  ⟨⟨by decide, (c8_amended_strip_hash_suffix _).1 (by decide)⟩,
   ⟨by decide, (c8_amended_strip_hash_suffix _).2 (by decide)⟩⟩

end Demangle

namespace Deduce

open CapRule

/-- **C6 (counterexample).** Parsing the decoded string
`<std::io::cursor::Cursor<T> as std::io::Read>::read_exact` does *not*
collect `std::io::cursor::Cursor`: the generic argument stays attached, so
the first collected path is `std::io::cursor::Cursor<T>` (exactly what the
repository's own `test_parse_trait_impl` expects). -/
theorem c6_counterexample :
    (TraitFnImpl.parse
        "<std::io::cursor::Cursor<T> as std::io::Read>::read_exact".toList).map
        TraitFnImpl.paths
      ≠ .ok [⟨"std::io::cursor::Cursor".toList⟩, ⟨"std::io::Read".toList⟩] := by
  intro h
  rw [show (TraitFnImpl.parse
      "<std::io::cursor::Cursor<T> as std::io::Read>::read_exact".toList).map
      TraitFnImpl.paths
    = .ok [⟨"std::io::cursor::Cursor<T>".toList⟩, ⟨"std::io::Read".toList⟩]
    from rfl] at h
  injection h with h'
  exact absurd h' (by decide)

/-- **C6 (amended).** The decoded string parses to a `TraitFnImpl` whose
`type_name` is `<std::io::cursor::Cursor<T> as std::io::Read>` (a
`TypeAsTrait` of two module paths, the generic parameter kept in the type's
path text) with function name `read_exact`, and whose collected paths are
exactly `[std::io::cursor::Cursor<T>, std::io::Read]` — the generic
parameter `T` does not contribute a separate path, but it is not stripped
from the `Self` type's path either. -/
theorem c6_amended_trait_impl_paths :
    TraitFnImpl.parse
        "<std::io::cursor::Cursor<T> as std::io::Read>::read_exact".toList
      = .ok ⟨.typeAsTrait (.rustPath ⟨"std::io::cursor::Cursor<T>".toList⟩)
          (.rustPath ⟨"std::io::Read".toList⟩), "read_exact".toList⟩ ∧
    (TraitFnImpl.parse
        "<std::io::cursor::Cursor<T> as std::io::Read>::read_exact".toList).map
        TraitFnImpl.paths
      = .ok [⟨"std::io::cursor::Cursor<T>".toList⟩, ⟨"std::io::Read".toList⟩] :=
  ⟨rfl, rfl⟩

/-- **C7.** A symbol decoding to `serde_json::to_string` whose path matches
no rule is recorded under `unresolved_crates["serde_json"]` (keyed by the
first path segment) with the path as evidence, and nothing at all — in
particular no `Unknown`/unmatched-symbol entry — is recorded in `caps`. -/
theorem c7_rule_miss_records_external_crate (rules : Rules)
    (h : rules.matchSymbol "serde_json::to_string".toList = none) :
    ∃ dc, DeducedCaps.addSymbol rules DeducedCaps.empty
        ⟨"serde_json::to_string".toList, "serde_json::to_string".toList,
          .linkage, .text⟩ = .ok dc ∧
      dc.unresolvedCrates ⟨"serde_json".toList⟩
        = {⟨"serde_json::to_string".toList⟩} ∧
      (∀ k, k ≠ ⟨"serde_json".toList⟩ → dc.unresolvedCrates k = ∅) ∧
      (∀ c, dc.caps c = ∅) := by
  have hfd : FunctionOrPath.fromDemangled "serde_json::to_string".toList
      = .ok [.rustPath ⟨"serde_json::to_string".toList⟩] := rfl
  have hseg : (RustPath.mk "serde_json::to_string".toList).segments
      = ["serde_json".toList, "to_string".toList] := rfl
  have hcn : CrateName.new "serde_json".toList
      = .ok ⟨"serde_json".toList⟩ := rfl
  have hstd : isStandardCrate "serde_json".toList = false := rfl
  refine ⟨{ caps := fun _ => ∅,
            unresolvedCrates := fun k =>
              if k = ⟨"serde_json".toList⟩ then
                {⟨"serde_json::to_string".toList⟩}
              else ∅ }, ?_, ?_, ?_, ?_⟩
  · simp only [DeducedCaps.addSymbol, hfd, List.foldlM,
      DeducedCaps.addFunctionOrPath, h, hseg, hcn, hstd]
    rfl
  · rfl
  · intro k hk
    exact if_neg hk
  · intro c
    rfl

/-- Witness for C7, with the empty rule table (which matches nothing). -/
theorem c7_rule_miss_records_external_crate_witness :
    (Rules.matchSymbol ⟨[]⟩ "serde_json::to_string".toList = none) ∧
    (∃ dc, DeducedCaps.addSymbol ⟨[]⟩ DeducedCaps.empty
        ⟨"serde_json::to_string".toList, "serde_json::to_string".toList,
          .linkage, .text⟩ = .ok dc ∧
      dc.unresolvedCrates ⟨"serde_json".toList⟩
        = {⟨"serde_json::to_string".toList⟩} ∧
      (∀ k, k ≠ ⟨"serde_json".toList⟩ → dc.unresolvedCrates k = ∅) ∧
      (∀ c, dc.caps c = ∅)) :=
  ⟨rfl, c7_rule_miss_records_external_crate ⟨[]⟩ rfl⟩

/-- **C9.** A module path whose first segment names a standard crate
(`std`, `core` or `alloc`, per `is_standard_crate`) and that matches no rule
is recorded as the `Unknown` capability with the path as
`UmatchedStandardPath` evidence; no unresolved-external-crate entry is
created (the `unresolved_crates` field of the result is `dc`'s, untouched,
by the first conjunct's record equality). -/
theorem c9_standard_crate_rule_miss_is_unknown (rules : Rules)
    (dc : DeducedCaps) (sym : Symbol) (path : RustPath)
    (seg0 : Str) (rest : List Str) (cn : CrateName)
    (hseg : path.segments = seg0 :: rest)
    (hmatch : rules.matchSymbol path.str = none)
    (hcn : CrateName.new seg0 = .ok cn)
    (hstd : isStandardCrate cn.name = true) :
    DeducedCaps.addFunctionOrPath rules sym dc (.rustPath path)
      = .ok { dc with
          caps := insertCap dc.caps .unknown (.umatchedStandardPath path) } ∧
    insertCap dc.caps .unknown (.umatchedStandardPath path) .unknown
      = insert (Reason.umatchedStandardPath path) (dc.caps .unknown) ∧
    (∀ c, c ≠ Capability.unknown →
      insertCap dc.caps .unknown (.umatchedStandardPath path) c = dc.caps c) := by
  refine ⟨?_, rfl, ?_⟩
  · simp only [DeducedCaps.addFunctionOrPath, hmatch, hseg, hcn, hstd, if_true]
  · intro c hc
    exact if_neg hc

/-- Witness for C9 at the path `std::fs::read` and the empty rule table. -/
theorem c9_standard_crate_rule_miss_is_unknown_witness :
    ((RustPath.mk "std::fs::read".toList).segments
        = "std".toList :: ["fs".toList, "read".toList] ∧
      Rules.matchSymbol ⟨[]⟩ "std::fs::read".toList = none ∧
      CrateName.new "std".toList = .ok ⟨"std".toList⟩ ∧
      isStandardCrate (CrateName.mk "std".toList).name = true) ∧
    DeducedCaps.addFunctionOrPath ⟨[]⟩
        ⟨[], [], .linkage, .text⟩ DeducedCaps.empty
        (.rustPath ⟨"std::fs::read".toList⟩)
      = .ok { DeducedCaps.empty with
          caps := insertCap DeducedCaps.empty.caps .unknown
            (.umatchedStandardPath ⟨"std::fs::read".toList⟩) } :=
  ⟨⟨rfl, rfl, rfl, rfl⟩,
   (c9_standard_crate_rule_miss_is_unknown ⟨[]⟩ DeducedCaps.empty
      ⟨[], [], .linkage, .text⟩ ⟨"std::fs::read".toList⟩ "std".toList
      ["fs".toList, "read".toList] ⟨"std".toList⟩ rfl rfl rfl rfl).1⟩

lemma fromDemangled_error_characterization (d : Str) (e : String)
    (h : FunctionOrPath.fromDemangled d = .error e) :
    strStartsWith d "rustc[".toList = true ∧
      findSub d [']', ':', ':'] = none := by
  unfold FunctionOrPath.fromDemangled at h
  by_cases h1 : strStartsWith d "rustc[".toList
  · rw [if_pos h1] at h
    cases hf : findSub d [']', ':', ':'] with
    | some i => rw [hf] at h; exact absurd h (by simp)
    | none => exact ⟨h1, rfl⟩
  · rw [if_neg h1] at h
    cases hp : TraitFnImpl.parse d with
    | ok ti => rw [hp] at h; exact absurd h (by simp)
    | error e' =>
      rw [hp] at h
      by_cases hc : containsSub d [':', ':']
      · rw [if_pos hc] at h; exact absurd h (by simp)
      · rw [if_neg hc] at h; exact absurd h (by simp)

lemma addFunctionOrPath_error_characterization (rules : Rules) (sym : Symbol)
    (dc : DeducedCaps) (fp : FunctionOrPath) (e : String)
    (h : DeducedCaps.addFunctionOrPath rules sym dc fp = .error e) :
    ∃ path, fp = .rustPath path ∧ rules.matchSymbol path.str = none ∧
      (path.segments = [] ∨
        ∃ s0 rest e', path.segments = s0 :: rest ∧
          CrateName.new s0 = .error e') := by
  cases fp with
  | function name =>
    simp only [DeducedCaps.addFunctionOrPath] at h
    split at h <;> simp_all
  | rustPath path =>
    simp only [DeducedCaps.addFunctionOrPath] at h
    split at h
    · exact absurd h (by simp)
    next hm =>
      refine ⟨path, rfl, hm, ?_⟩
      split at h
      next hseg => exact Or.inl hseg
      next s0 rest hseg =>
        split at h
        next e' hcn => exact Or.inr ⟨s0, rest, e', hseg, hcn⟩
        next cn hcn =>
          split at h <;> exact absurd h (by simp)

lemma foldlM_addFunctionOrPath_error (rules : Rules) (sym : Symbol) :
    ∀ (l : List FunctionOrPath) (dc : DeducedCaps) (e : String),
      l.foldlM (fun dc fp => DeducedCaps.addFunctionOrPath rules sym dc fp) dc
          = .error e →
      ∃ fp ∈ l, ∃ dc', DeducedCaps.addFunctionOrPath rules sym dc' fp
          = .error e := by
  intro l
  induction l with
  | nil => intro dc e h; exact nomatch h
  | cons a l ih =>
    intro dc e h
    rw [List.foldlM_cons] at h
    cases ha : DeducedCaps.addFunctionOrPath rules sym dc a with
    | error e' =>
      rw [ha] at h
      have h2 : (Except.error e' : Except String DeducedCaps)
          = Except.error e := h
      injection h2 with h3
      exact ⟨a, by simp, dc, h3 ▸ ha⟩
    | ok dc1 =>
      rw [ha] at h
      have h' : l.foldlM (fun dc fp =>
          DeducedCaps.addFunctionOrPath rules sym dc fp) dc1 = .error e := h
      obtain ⟨fp, hfp, dc', hd⟩ := ih dc1 e h'
      exact ⟨fp, by simp [hfp], dc', hd⟩

/-- **C2 (counterexample).** Capability deduction is *not* total: on a symbol
whose decoded form is `rustc[` (a `rustc[`-prefixed name with no `]::`),
`FunctionOrPath::from_demangled` hits its `panic!("Weird symbol: …")` and
the whole of `add_symbol` aborts instead of recording the symbol as
unknown. -/
theorem c2_counterexample :
    DeducedCaps.addSymbol ⟨[]⟩ DeducedCaps.empty
        ⟨"rustc[".toList, "rustc[".toList, .linkage, .text⟩
      = .error "panic: Weird symbol" := rfl

/-- **C2 (amended).** Deduction is total *except* in exactly two boundary
cases: `add_symbol` can only fail when (a) the decoded name starts with
`rustc[` but contains no `]::` (the `panic!` in `from_demangled`), or
(b) some produced module path matches no rule and its first segment is not a
valid crate name (`CrateName::new` fails, or the segment list is empty),
whose error `add_symbol` propagates via `?`.  Every other decoded symbol is
processed without panicking or erroring, unmatched symbols being recorded as
unknown or as unresolved external crates. -/
theorem c2_amended_deduction_total_except_boundaries (rules : Rules)
    (dc : DeducedCaps) (sym : Symbol) (e : String)
    (herr : DeducedCaps.addSymbol rules dc sym = .error e) :
    (strStartsWith sym.demangled "rustc[".toList = true ∧
      findSub sym.demangled [']', ':', ':'] = none) ∨
    (∃ paths, FunctionOrPath.fromDemangled sym.demangled = .ok paths ∧
      ∃ path, FunctionOrPath.rustPath path ∈ paths ∧
        rules.matchSymbol path.str = none ∧
        (path.segments = [] ∨
          ∃ s0 rest e', path.segments = s0 :: rest ∧
            CrateName.new s0 = .error e')) := by
  unfold DeducedCaps.addSymbol at herr
  cases hfd : FunctionOrPath.fromDemangled sym.demangled with
  | error e0 =>
    exact Or.inl (fromDemangled_error_characterization _ _ hfd)
  | ok paths =>
    rw [hfd] at herr
    have herr' : paths.foldlM (fun dc fp =>
        DeducedCaps.addFunctionOrPath rules sym dc fp) dc = .error e := herr
    obtain ⟨fp, hfp, dc', hd⟩ :=
      foldlM_addFunctionOrPath_error rules sym paths dc e herr'
    obtain ⟨path, rfl, hm, hrest⟩ :=
      addFunctionOrPath_error_characterization rules sym dc' fp e hd
    exact Or.inr ⟨paths, rfl, path, hfp, hm, hrest⟩

/-- Witness for C2 (amended): the decoded name `1foo::bar` misses every rule
of the empty table and its first segment `1foo` is not a valid crate name,
so `add_symbol` propagates the crate-name error — realizing boundary case
(b). -/
theorem c2_amended_deduction_total_except_boundaries_witness :
    (DeducedCaps.addSymbol ⟨[]⟩ DeducedCaps.empty
        ⟨"1foo::bar".toList, "1foo::bar".toList, .linkage, .text⟩
      = .error "Invalid crate name: cannot start with a digit") ∧
    ((strStartsWith (Symbol.mk "1foo::bar".toList "1foo::bar".toList
          .linkage .text).demangled "rustc[".toList = true ∧
        findSub (Symbol.mk "1foo::bar".toList "1foo::bar".toList
          .linkage .text).demangled [']', ':', ':'] = none) ∨
      (∃ paths, FunctionOrPath.fromDemangled (Symbol.mk "1foo::bar".toList
            "1foo::bar".toList .linkage .text).demangled = .ok paths ∧
        ∃ path, FunctionOrPath.rustPath path ∈ paths ∧
          Rules.matchSymbol ⟨[]⟩ path.str = none ∧
          (path.segments = [] ∨
            ∃ s0 rest e', path.segments = s0 :: rest ∧
              CrateName.new s0 = .error e'))) :=
  ⟨rfl,
   c2_amended_deduction_total_except_boundaries ⟨[]⟩ DeducedCaps.empty
     ⟨"1foo::bar".toList, "1foo::bar".toList, .linkage, .text⟩
     "Invalid crate name: cannot start with a digit" rfl⟩

end Deduce
